import Mathlib

/-!
Verification development for the NIS3607 blockchain-attack simulator.

The repository has two randomized models:

* `selfish_mining.py`: a two-party selfish-mining simulation whose core is
  the branch-resolution state machine (`selfish_miner`, `honest_miner`,
  `select_chain`, `block_count` in class `BlockchainSimulation`).
* `fork_attack.py`: a multi-node fork-race simulation (`try_mine_block`,
  `select_chain`, `simulate_blockchain`).

The embedding below mirrors the Python code.  Because the Python resolver
assigns list references without copying in some branches (and copies via
`copy.deepcopy` in others), chain objects can become aliased, and an
in-place `append` then mutates several observers at once.  To capture that
faithfully, the state carries an explicit heap (`store`) of chain objects;
the three chain fields of the Python objects are modelled as references
(`Nat` indices) into that heap.  `copy.deepcopy` allocates a fresh cell;
plain Python assignment copies the reference.

Randomness: the only random draws the resolver consumes come from
`random.random()`; we model the seeded stream as a function
`randf : Nat -> Rat` together with a counter `rng` in the state, one index
consumed per call (same seed and configuration give the same stream).
Timestamps come from `time.time()`; we model them as a stream
`tsf : Nat -> Nat` with a counter `clock`, one index per `Block` created.
A block's nonce and hash are a pure function of its fields; the simulation
never reads them (they only terminate the proof-of-work search), so blocks
are modelled as (node_id, data, timestamp).
-/

namespace SM

/-- A block of `selfish_mining.py`: `Block(node_id, data)` with its
`time.time()` timestamp.  The hash/nonce found by `mine` are functions of
these fields that no simulation branch ever inspects, so they are not
carried. -/
structure Block where
  node_id : Int
  data : String
  ts : Nat
deriving DecidableEq, Repr

/-- A Python list of blocks (one heap object). -/
abbrev Chain := List Block

/-- The whole mutable state of one `BlockchainSimulation`:
a heap of chain objects plus the three chain references
(`honest_nodes.blockchain`, `selfish_node.blockchain`,
`selfish_node.public_chain`), the counter
`selfish_node.private_chain_length`, the random-stream position and the
clock position.  `next` is the next unused heap cell. -/
structure SimState where
  store : Nat → Chain
  hRef : Nat
  bRef : Nat
  pRef : Nat
  pcl : Int
  rng : Nat
  next : Nat
  clock : Nat

/-- Dereference a chain object. -/
def chainAt (s : SimState) (r : Nat) : Chain := s.store r

/-- In-place `list.append` on the object `r` points to (mutates every
reference aliasing `r`). -/
def appendBlock (s : SimState) (r : Nat) (b : Block) : SimState :=
  { s with store := fun x => if x = r then s.store r ++ [b] else s.store x }

/-- `copy.deepcopy`: allocate a fresh heap cell holding the value `c`.
The fresh cell is `s.next`. -/
def allocAt (s : SimState) (c : Chain) : SimState :=
  { s with store := fun x => if x = s.next then c else s.store x,
           next := s.next + 1 }

/-- Length of the chain a reference points to. -/
def lenAt (s : SimState) (r : Nat) : Nat := (chainAt s r).length

/-- The adversary's actual undisclosed lead:
`len(selfish_node.blockchain) - len(selfish_node.public_chain)` as an
integer (the quantity the Python code calls `delta`). -/
def lead (s : SimState) : Int := (lenAt s s.bRef : Int) - (lenAt s s.pRef : Int)

/-- Which branch of the resolver a round took. -/
inductive RTag
  | sPub | sHold | h0 | h1lt | h1ge | h2 | hElse
deriving DecidableEq, Repr

/-- `BlockchainSimulation.selfish_miner`: mine a block tagged `-1`,
append it to the private chain, bump `private_chain_length`, then, if
`delta == 0 and private_chain_length == 2`, publish the whole private
chain (`public_chain = deepcopy(blockchain)`, counter reset).
Returns the branch taken. -/
def selfish_miner (tsf : Nat → Nat) (s : SimState) : SimState × RTag :=
  let blk : Block := ⟨-1, "selfish", tsf s.clock⟩
  let s1 := { appendBlock s s.bRef blk with
                clock := s.clock + 1, pcl := s.pcl + 1 }
  let delta : Int := (lenAt s1 s1.bRef : Int) - (lenAt s1 s1.pRef : Int)
  if delta = 0 ∧ s1.pcl = 2 then
    ({ allocAt { s1 with pcl := 0 } (chainAt s1 s1.bRef) with
         pRef := s1.next }, .sPub)
  else (s1, .sHold)

/-- `BlockchainSimulation.honest_miner`: mine a block tagged `1`, append
it to the honest chain, then branch on
`delta = len(selfish.blockchain) - len(selfish.public_chain)`:
`0` → selfish node abandons (private chain := deepcopy of honest chain);
`1` → publish (public := deepcopy(private)), then a coin
`random.random() < 0.5` decides: below → the selfish node's public and
private chain references are both assigned the honest chain object
(no copy); otherwise → the honest node's reference is assigned the
public-chain object (no copy);
`2` → publish the whole private chain;
otherwise → `public := deepcopy(blockchain[:len(public)+1])` and
`private_chain_length -= 2`. -/
def honest_miner (randf : Nat → ℚ) (tsf : Nat → Nat) (s : SimState) :
    SimState × RTag :=
  let blk : Block := ⟨1, "honest", tsf s.clock⟩
  let s1 := { appendBlock s s.hRef blk with clock := s.clock + 1 }
  let delta : Int := (lenAt s1 s1.bRef : Int) - (lenAt s1 s1.pRef : Int)
  if delta = 0 then
    ({ allocAt s1 (chainAt s1 s1.hRef) with bRef := s1.next, pcl := 0 }, .h0)
  else if delta = 1 then
    let s2 := { allocAt s1 (chainAt s1 s1.bRef) with pRef := s1.next, pcl := 0 }
    let s3 := { s2 with rng := s2.rng + 1 }
    if randf s2.rng < Rat.divInt 1 2 then
      ({ s3 with pRef := s3.hRef, bRef := s3.hRef }, .h1lt)
    else
      ({ s3 with hRef := s3.pRef }, .h1ge)
  else if delta = 2 then
    ({ allocAt s1 (chainAt s1 s1.bRef) with pRef := s1.next, pcl := 0 }, .h2)
  else
    ({ allocAt s1 ((chainAt s1 s1.bRef).take (lenAt s1 s1.pRef + 1)) with
         pRef := s1.next, pcl := s1.pcl - 2 }, .hElse)

/-- `BlockchainSimulation.select_chain`: whichever of the selfish public
chain and the honest chain is longer is deep-copied over the other
(on a tie the honest node copies the public chain). -/
def select_chain (s : SimState) : SimState :=
  if lenAt s s.pRef > lenAt s s.hRef then
    { allocAt s (chainAt s s.pRef) with hRef := s.next }
  else if lenAt s s.pRef < lenAt s s.hRef then
    { allocAt s (chainAt s s.hRef) with pRef := s.next }
  else
    { allocAt s (chainAt s s.pRef) with hRef := s.next }

/-- One round of `BlockchainSimulation.simulate`: draw
`random.random() <= malicious_rate` to choose the miner, run it, then run
`select_chain`. -/
def roundStep (rate : ℚ) (randf : Nat → ℚ) (tsf : Nat → Nat)
    (s : SimState) : SimState × RTag :=
  let s0 := { s with rng := s.rng + 1 }
  let m := if randf s.rng ≤ rate then selfish_miner tsf s0
           else honest_miner randf tsf s0
  (select_chain m.1, m.2)

/-- The state right after `BlockchainSimulation.__init__`: three distinct
genesis chain objects (`HonestNode` genesis tagged `1`, the selfish
node's private and public genesis tagged `-1`). -/
def initState (tsf : Nat → Nat) : SimState :=
  { store := fun r =>
      if r = 0 then [⟨1, "Genesis", tsf 0⟩]
      else if r = 1 then [⟨-1, "Genesis", tsf 1⟩]
      else if r = 2 then [⟨-1, "Genesis", tsf 2⟩]
      else []
    hRef := 0, bRef := 1, pRef := 2, pcl := 0, rng := 0, next := 3,
    clock := 3 }

/-- Run `n` rounds of the simulation from the initial state, recording the
branch each round took. -/
def runSim (rate : ℚ) (randf : Nat → ℚ) (tsf : Nat → Nat) :
    Nat → SimState × List RTag
  | 0 => (initState tsf, [])
  | n + 1 =>
    let r := runSim rate randf tsf n
    let st := roundStep rate randf tsf r.1
    (st.1, r.2 ++ [st.2])

/-- `BlockchainSimulation.block_count`: how many blocks of the honest
node's chain carry `node_id == id` (the genesis block included). -/
def block_count (s : SimState) (id : Int) : Nat :=
  ((chainAt s s.hRef).filter (fun b => b.node_id = id)).length

/-- The ratio printed at the end of `simulate`:
`block_count(-1) / (block_count(1) + block_count(-1))`. -/
def profit_frac (s : SimState) : ℚ :=
  (block_count s (-1) : ℚ) / ((block_count s 1 : ℚ) + (block_count s (-1) : ℚ))

/-- Modelled from the spec (comparison definition, not from the source):
block counting with the Genesis block excluded, as the spec's outcome
accounting demands. -/
def block_count_specGenesisExcluded (s : SimState) (id : Int) : Nat :=
  ((chainAt s s.hRef).filter
    (fun b => b.node_id = id ∧ b.data ≠ "Genesis")).length

/-- Modelled from the spec (comparison definition): the profit ratio with
Genesis excluded from both counts. -/
def profit_frac_specGenesisExcluded (s : SimState) : ℚ :=
  (block_count_specGenesisExcluded s (-1) : ℚ) /
    ((block_count_specGenesisExcluded s 1 : ℚ) +
      (block_count_specGenesisExcluded s (-1) : ℚ))

/-- Reachable states of one simulation run: the initial state and
everything a round step produces from a reachable state. -/
inductive Reachable (rate : ℚ) (randf : Nat → ℚ) (tsf : Nat → Nat) :
    SimState → Prop
  | init : Reachable rate randf tsf (initState tsf)
  | step {s : SimState} : Reachable rate randf tsf s →
      Reachable rate randf tsf (roundStep rate randf tsf s).1

/-- Every block of a chain was produced by the honest side or the selfish
side (node ids `1` and `-1` are the only ones the program ever writes). -/
def goodChain (c : Chain) : Prop := ∀ b ∈ c, b.node_id = 1 ∨ b.node_id = -1

/-- Structural invariant of reachable states (established at every round
boundary): the honest reference is not aliased with either selfish
reference, all references are allocated cells, honest and public chain
have equal length, the private chain is at least as long as the public
one, and all three chains carry only node ids `1`/`-1`. -/
def StateInv (s : SimState) : Prop :=
  s.hRef ≠ s.bRef ∧ s.hRef ≠ s.pRef ∧
  s.hRef < s.next ∧ s.bRef < s.next ∧ s.pRef < s.next ∧
  lenAt s s.hRef = lenAt s s.pRef ∧
  lenAt s s.pRef ≤ lenAt s s.bRef ∧
  goodChain (chainAt s s.hRef) ∧ goodChain (chainAt s s.bRef) ∧
  goodChain (chainAt s s.pRef)

/-- The identity timestamp stream (each block creation reads the next
tick). -/
def tsId : Nat → Nat := fun i => i

/-- Draw stream for the run selfish, selfish, selfish, selfish, honest,
honest, selfish, honest at `malicious_rate = 1/2` (a draw at most `1/2`
selects the selfish miner).  Written with `Rat.divInt` so that the
kernel can evaluate the comparisons. -/
def drawsLeadDrain : Nat → ℚ :=
  fun i => [Rat.divInt 2 5, Rat.divInt 2 5, Rat.divInt 2 5, Rat.divInt 2 5,
    Rat.divInt 3 5, Rat.divInt 3 5, Rat.divInt 2 5, Rat.divInt 3 5].getD i 0

/-- Draw stream that always selects the selfish miner at
`malicious_rate = 1/2`. -/
def drawsAllSelfish : Nat → ℚ := fun _ => 0

/-- Draw stream for the run selfish, honest-with-coin-below-1/2 at
`malicious_rate = 1/2`: the round draws are `2/5` and `3/5` and the
tie-break coin draw is `1/5`. -/
def drawsAliasTie : Nat → ℚ :=
  fun i => [Rat.divInt 2 5, Rat.divInt 3 5, Rat.divInt 1 5].getD i 0

/-- Draw stream extending `drawsAliasTie` by two further selfish rounds. -/
def drawsAliasPub : Nat → ℚ :=
  fun i => [Rat.divInt 2 5, Rat.divInt 3 5, Rat.divInt 1 5, Rat.divInt 2 5,
    Rat.divInt 2 5].getD i 0

/-- Timestamp-erasure of a block: the fields the resolver can observe. -/
def eraseB (b : Block) : Int × String := (b.node_id, b.data)

/-- Two states that agree on everything except block timestamps. -/
def tsEquiv (s t : SimState) : Prop :=
  s.hRef = t.hRef ∧ s.bRef = t.bRef ∧ s.pRef = t.pRef ∧ s.pcl = t.pcl ∧
  s.rng = t.rng ∧ s.next = t.next ∧ s.clock = t.clock ∧
  ∀ r, (s.store r).map eraseB = (t.store r).map eraseB

/-- What holds of the state `m` a miner step leaves, relative to the
round-start state `s`: references are valid, the private chain is at
least as long as the public one, if the honest chain is strictly longer
than the public one then the honest reference is unaliased and the
private chain is at least as long as the honest one, all chains carry
only the two node ids, and the honest chain has not shrunk. -/
structure MidFacts (s m : SimState) : Prop where
  hlt : m.hRef < m.next
  blt : m.bRef < m.next
  plt : m.pRef < m.next
  leadNN : (lenAt m m.pRef : Int) ≤ (lenAt m m.bRef : Int)
  hcase : lenAt m m.pRef < lenAt m m.hRef →
    m.hRef ≠ m.bRef ∧ lenAt m m.hRef ≤ lenAt m m.bRef
  gh : goodChain (chainAt m m.hRef)
  gb : goodChain (chainAt m m.bRef)
  gp : goodChain (chainAt m m.pRef)
  hmono : lenAt s s.hRef ≤ lenAt m m.hRef


end SM

namespace FA

/-- A block of `fork_attack.py`: `Block(index, prev_hash, timestamp,
data)`.  The hash/nonce found by `mine` are functions of the fields that
nothing in the simulation ever branches on, and `prev_hash` is itself a
function of the parent's fields, so blocks are modelled by their index,
data tag and creation timestamp. -/
structure FBlock where
  index : Nat
  data : String
  ts : Nat
deriving DecidableEq, Repr

/-- A node's local chain. -/
abbrev FChain := List FBlock

/-- `try_mine_block`: draw once; on success build a block extending the
chain tip (`chain[-1]`) and append it.  Returns the chain and the
advanced draw/clock counters.  (The chain always holds at least the
genesis block, so the default tip is never used.) -/
def try_mine_block (srate : ℚ) (randf : Nat → ℚ) (tsf : Nat → Nat)
    (d : String) (c : FChain) (rng clock : Nat) : FChain × Nat × Nat :=
  if randf rng < srate then
    (c ++ [⟨(c.getLastD ⟨0, "", 0⟩).index + 1, d, tsf clock⟩],
      rng + 1, clock + 1)
  else (c, rng + 1, clock)

/-- Run `try_mine_block` over every node of a population in order,
threading the draw and clock counters. -/
def mineAll (srate : ℚ) (randf : Nat → ℚ) (tsf : Nat → Nat) (d : String) :
    List FChain → Nat → Nat → List FChain × Nat × Nat
  | [], rng, clock => ([], rng, clock)
  | c :: cs, rng, clock =>
    let r := try_mine_block srate randf tsf d c rng clock
    let rest := mineAll srate randf tsf d cs r.2.1 r.2.2
    (r.1 :: rest.1, rest.2.1, rest.2.2)

/-- `fork_attack.select_chain`: the longest chain among the nodes is
chosen (uniformly among the maximal ones via `random.choice`, modelled by
the `choicef` oracle consuming one stream position) and every node gets a
copy of it.  On an empty node list Python's `max()` raises `ValueError`,
modelled as `none`. -/
def select_chain (choicef : Nat → Nat) (nodes : List FChain) (rng : Nat) :
    Option (FChain × List FChain × Nat) :=
  match nodes with
  | [] => none
  | _ :: _ =>
    let maxLen := (nodes.map List.length).foldl max 0
    let candidates := nodes.filter (fun c => c.length = maxLen)
    let chosen := candidates.getD (choicef rng % candidates.length) []
    some (chosen, nodes.map (fun _ => chosen), rng + 1)

/-- The per-trial mutable state of `simulate_blockchain`: the honest and
malicious populations' chains plus the random-stream and clock
positions. -/
structure FState where
  honest : List FChain
  malicious : List FChain
  rng : Nat
  clock : Nat
deriving Repr

/-- One iteration of the inner `while True` loop: every honest node then
every malicious node tries to mine, then each population is unified on
its longest chain.  Returns the new state and the two representative
chains (`chain_honest`, `chain_malicious`), or `none` if a population is
empty (Python raises). -/
def forkRound (srate : ℚ) (randf : Nat → ℚ) (choicef : Nat → Nat)
    (tsf : Nat → Nat) (st : FState) : Option (FState × FChain × FChain) :=
  let mh := mineAll srate randf tsf "Honest" st.honest st.rng st.clock
  let mm := mineAll srate randf tsf "Malicious" st.malicious mh.2.1 mh.2.2
  match FA.select_chain choicef mh.1 mm.2.1 with
  | none => none
  | some (chH, honest2, rng2) =>
    match FA.select_chain choicef mm.1 rng2 with
    | none => none
    | some (chM, malicious2, rng3) =>
      some (⟨honest2, malicious2, rng3, mm.2.2⟩, chH, chM)

/-- The final comparison of `simulate_blockchain`:
`len_m > len_h or (len_m == len_h and random.random() < 0.5)` with
`len_x = len(chain_x) - 1` (genesis excluded). -/
def winDecision (randf : Nat → ℚ) (chH chM : FChain) (rng : Nat) : Bool :=
  if (chM.length : Int) - 1 > (chH.length : Int) - 1 then true
  else if (chM.length : Int) - 1 = (chH.length : Int) - 1 then
    decide (randf rng < Rat.divInt 1 2)
  else false

/-- The inner `while True` loop with explicit fuel: run a round; if either
representative chain length excluding genesis exceeds the threshold 6,
stop and decide the trial; otherwise continue.  Returns the number of
rounds executed and the trial outcome, `none` on error or fuel
exhaustion. -/
def forkTrial (srate : ℚ) (randf : Nat → ℚ) (choicef : Nat → Nat)
    (tsf : Nat → Nat) : Nat → FState → Option (Nat × Bool)
  | 0, _ => none
  | fuel + 1, st =>
    match forkRound srate randf choicef tsf st with
    | none => none
    | some (st2, chH, chM) =>
      if 6 < (chH.length : Int) - 1 ∨ 6 < (chM.length : Int) - 1 then
        some (1, winDecision randf chH chM st2.rng)
      else
        match forkTrial srate randf choicef tsf fuel st2 with
        | none => none
        | some (n, w) => some (n + 1, w)

/-- The state after exactly `n ≥ 1` rounds together with the `n`-th
round's representative chains (`none` if an earlier round errored or
`n = 0`). -/
def afterRounds (srate : ℚ) (randf : Nat → ℚ) (choicef : Nat → Nat)
    (tsf : Nat → Nat) : Nat → FState → Option (FState × FChain × FChain)
  | 0, _ => none
  | n + 1, st =>
    match forkRound srate randf choicef tsf st with
    | none => none
    | some r =>
      match n with
      | 0 => some r
      | m + 1 => afterRounds srate randf choicef tsf (m + 1) r.1

/-- `int()` truncation toward zero on a rational. -/
def pyIntTrunc (q : ℚ) : Int := if 0 ≤ q then ⌊q⌋ else ⌈q⌉

/-- `honest_count = int(node_count * (1 - malicious_rate))`. -/
def honest_count (node_count : Nat) (malicious_rate : ℚ) : Int :=
  pyIntTrunc ((node_count : ℚ) * (1 - malicious_rate))

/-- `malicious_count = node_count - honest_count`. -/
def malicious_count (node_count : Nat) (malicious_rate : ℚ) : Int :=
  (node_count : Int) - honest_count node_count malicious_rate

/-- The per-trial initial state: `honest_count` honest nodes and
`malicious_count` malicious nodes, each holding a fresh genesis block
(`Block(0, "0", time.time(), "Genesis")`). -/
def initFState (tsf : Nat → Nat) (hc mc : Nat) : FState :=
  { honest := (List.range hc).map (fun i => [⟨0, "Genesis", tsf i⟩]),
    malicious := (List.range mc).map (fun j => [⟨0, "Genesis", tsf (hc + j)⟩]),
    rng := 0, clock := hc + mc }

/-- One trial of `simulate_blockchain` for a given configuration: build
the populations from `node_count` and `malicious_rate` and run the round
loop. -/
def simulate_trial (node_count : Nat) (malicious_rate srate : ℚ)
    (randf : Nat → ℚ) (choicef : Nat → Nat) (tsf : Nat → Nat)
    (fuel : Nat) : Option (Nat × Bool) :=
  let hc := (honest_count node_count malicious_rate).toNat
  let mc := (malicious_count node_count malicious_rate).toNat
  forkTrial srate randf choicef tsf fuel (initFState tsf hc mc)

end FA

namespace SM

/-! ### Store lemmas -/

@[simp] theorem chainAt_appendBlock (s : SimState) (r : Nat) (b : Block)
    (x : Nat) :
    chainAt (appendBlock s r b) x = if x = r then chainAt s r ++ [b]
      else chainAt s x := rfl

@[simp] theorem chainAt_allocAt (s : SimState) (c : Chain) (x : Nat) :
    chainAt (allocAt s c) x = if x = s.next then c else chainAt s x := rfl

@[simp] theorem appendBlock_hRef (s : SimState) (r : Nat) (b : Block) :
    (appendBlock s r b).hRef = s.hRef := rfl
@[simp] theorem appendBlock_bRef (s : SimState) (r : Nat) (b : Block) :
    (appendBlock s r b).bRef = s.bRef := rfl
@[simp] theorem appendBlock_pRef (s : SimState) (r : Nat) (b : Block) :
    (appendBlock s r b).pRef = s.pRef := rfl
@[simp] theorem appendBlock_pcl (s : SimState) (r : Nat) (b : Block) :
    (appendBlock s r b).pcl = s.pcl := rfl
@[simp] theorem appendBlock_rng (s : SimState) (r : Nat) (b : Block) :
    (appendBlock s r b).rng = s.rng := rfl
@[simp] theorem appendBlock_next (s : SimState) (r : Nat) (b : Block) :
    (appendBlock s r b).next = s.next := rfl
@[simp] theorem appendBlock_clock (s : SimState) (r : Nat) (b : Block) :
    (appendBlock s r b).clock = s.clock := rfl

@[simp] theorem allocAt_hRef (s : SimState) (c : Chain) :
    (allocAt s c).hRef = s.hRef := rfl
@[simp] theorem allocAt_bRef (s : SimState) (c : Chain) :
    (allocAt s c).bRef = s.bRef := rfl
@[simp] theorem allocAt_pRef (s : SimState) (c : Chain) :
    (allocAt s c).pRef = s.pRef := rfl
@[simp] theorem allocAt_pcl (s : SimState) (c : Chain) :
    (allocAt s c).pcl = s.pcl := rfl
@[simp] theorem allocAt_rng (s : SimState) (c : Chain) :
    (allocAt s c).rng = s.rng := rfl
@[simp] theorem allocAt_next (s : SimState) (c : Chain) :
    (allocAt s c).next = s.next + 1 := rfl
@[simp] theorem allocAt_clock (s : SimState) (c : Chain) :
    (allocAt s c).clock = s.clock := rfl

@[simp] theorem lenAt_def (s : SimState) (r : Nat) :
    lenAt s r = (chainAt s r).length := rfl

theorem goodChain_append {c : Chain} {b : Block} (hc : goodChain c)
    (hb : b.node_id = 1 ∨ b.node_id = -1) : goodChain (c ++ [b]) := by
  intro x hx
  rcases List.mem_append.1 hx with h | h
  · exact hc x h
  · rcases List.mem_singleton.1 h with rfl
    exact hb

theorem goodChain_take {c : Chain} (hc : goodChain c) (n : Nat) :
    goodChain (c.take n) := fun x hx => hc x (List.take_subset n c hx)

/-! ### Mid-round facts and preservation of the invariant -/

/-- `select_chain` turns any mid-round state satisfying `MidFacts` back
into an invariant state, never shrinks the honest chain, and leaves the
adversary's lead nonnegative. -/
theorem select_chain_inv {s m : SimState} (f : MidFacts s m) :
    StateInv (select_chain m) ∧
      lenAt s s.hRef ≤ lenAt (select_chain m) (select_chain m).hRef ∧
      0 ≤ lead (select_chain m) := by
  obtain ⟨hlt, blt, plt, leadNN, hcase, gh, gb, gp, hmono⟩ := f
  have hne : m.hRef ≠ m.next := Nat.ne_of_lt hlt
  have bne : m.bRef ≠ m.next := Nat.ne_of_lt blt
  have pne : m.pRef ≠ m.next := Nat.ne_of_lt plt
  simp only [lenAt_def, chainAt] at leadNN hcase hmono gh gb gp
  unfold select_chain
  split
  · -- public chain strictly longer: honest node copies it
    rename_i hgt
    simp only [lenAt_def, chainAt] at hgt
    simp [StateInv, lead, lenAt_def, chainAt, allocAt, pne, bne, hne, gp, gb, gh]
    omega
  · split
    · -- honest chain strictly longer: public reference copies it
      rename_i hngt hlt2
      simp only [lenAt_def, chainAt] at hlt2
      have hb := hcase hlt2
      simp [StateInv, lead, lenAt_def, chainAt, allocAt, pne, bne, hne, gp, gb,
        gh, hb.1]
      omega
    · -- equal lengths: honest node copies the public chain
      rename_i hngt hnlt
      simp only [lenAt_def, chainAt] at hngt hnlt
      simp [StateInv, lead, lenAt_def, chainAt, allocAt, pne, bne, hne, gp, gb, gh]
      omega

/-- A `selfish_miner` step from an invariant state leaves a state
satisfying the mid-round facts (in particular a nonnegative lead). -/
theorem selfish_miner_mid (tsf : Nat → Nat) (s : SimState) (hInv : StateInv s) :
    MidFacts s (selfish_miner tsf s).1 := by
  unfold StateInv at hInv
  obtain ⟨h1, h2, h3, h4, h5, h6, h7, g1, g2, g3⟩ := hInv
  simp only [lenAt_def, chainAt] at h6 h7 g1 g2 g3
  have h1' : ¬ s.bRef = s.hRef := fun h => h1 h.symm
  have h2' : ¬ s.pRef = s.hRef := fun h => h2 h.symm
  have gB1 : goodChain (s.store s.bRef ++ [⟨-1, "selfish", tsf s.clock⟩]) :=
    goodChain_append g2 (Or.inr rfl)
  by_cases hbp : s.pRef = s.bRef
  · unfold selfish_miner
    dsimp only
    split
    · -- publish branch
      refine ⟨?_, ?_, ?_, ?_, ?_, ?_, ?_, ?_, ?_⟩ <;>
        simp [lenAt_def, chainAt, appendBlock, allocAt, hbp, h1, h2, h1',
          h2', Nat.ne_of_lt h3, Nat.ne_of_lt h4, Nat.ne_of_lt h5, g1,
          gB1] <;>
        omega
    · refine ⟨?_, ?_, ?_, ?_, ?_, ?_, ?_, ?_, ?_⟩ <;>
        simp [lenAt_def, chainAt, appendBlock, allocAt, hbp, h1, h2, h1',
          h2', g1, gB1] <;>
        omega
  · unfold selfish_miner
    dsimp only
    split
    · rename_i hcond
      -- with distinct references the appended private chain is strictly
      -- longer than the public one, so the publish guard cannot hold
      exfalso
      simp only [lenAt_def, chainAt, appendBlock] at hcond
      simp [hbp, h1, h1'] at hcond
      omega
    · refine ⟨?_, ?_, ?_, ?_, ?_, ?_, ?_, ?_, ?_⟩ <;>
        simp [lenAt_def, chainAt, appendBlock, allocAt, hbp, h1, h2, h1',
          h2', g1, g3, gB1] <;>
        omega

/-- A `honest_miner` step from an invariant state leaves a state
satisfying the mid-round facts (in particular a nonnegative lead). -/
theorem honest_miner_mid (randf : Nat → ℚ) (tsf : Nat → Nat) (s : SimState)
    (hInv : StateInv s) : MidFacts s (honest_miner randf tsf s).1 := by
  unfold StateInv at hInv
  obtain ⟨h1, h2, h3, h4, h5, h6, h7, g1, g2, g3⟩ := hInv
  simp only [lenAt_def, chainAt] at h6 h7 g1 g2 g3
  have h1' : ¬ s.bRef = s.hRef := fun h => h1 h.symm
  have h2' : ¬ s.pRef = s.hRef := fun h => h2 h.symm
  have gH1 : goodChain (s.store s.hRef ++ [⟨1, "honest", tsf s.clock⟩]) :=
    goodChain_append g1 (Or.inl rfl)
  have gTake : ∀ n, goodChain ((s.store s.bRef).take n) := fun n =>
    goodChain_take g2 n
  unfold honest_miner
  dsimp only
  split
  · -- delta = 0: abandon, private chain copies the honest chain
    rename_i hd
    simp [lenAt_def, chainAt, appendBlock, h1, h2, h1', h2'] at hd
    refine ⟨?_, ?_, ?_, ?_, ?_, ?_, ?_, ?_, ?_⟩ <;>
      simp [lenAt_def, chainAt, appendBlock, allocAt, h1, h2, h1', h2',
        Nat.ne_of_lt h3, Nat.ne_of_lt h4, Nat.ne_of_lt h5, g2, g3, gH1] <;>
      omega
  · split
    · -- delta = 1: tie-break
      rename_i hnd0 hd1
      simp [lenAt_def, chainAt, appendBlock, h1, h2, h1', h2'] at hd1
      split
      · -- coin below 1/2: both selfish references take the honest chain
        refine ⟨?_, ?_, ?_, ?_, ?_, ?_, ?_, ?_, ?_⟩ <;>
          simp [lenAt_def, chainAt, appendBlock, allocAt, h1, h2, h1', h2',
            Nat.ne_of_lt h3, Nat.ne_of_lt h4, Nat.ne_of_lt h5, g2, g3,
            gH1] <;>
          omega
      · -- coin at or above 1/2: honest reference takes the public chain
        refine ⟨?_, ?_, ?_, ?_, ?_, ?_, ?_, ?_, ?_⟩ <;>
          simp [lenAt_def, chainAt, appendBlock, allocAt, h1, h2, h1', h2',
            Nat.ne_of_lt h3, Nat.ne_of_lt h4, Nat.ne_of_lt h5, g2, g3,
            gH1] <;>
          omega
    · split
      · -- delta = 2: publish the whole private chain
        rename_i hnd1 hd2
        simp [lenAt_def, chainAt, appendBlock, h1, h2, h1', h2'] at hd2
        refine ⟨?_, ?_, ?_, ?_, ?_, ?_, ?_, ?_, ?_⟩ <;>
          simp [lenAt_def, chainAt, appendBlock, allocAt, h1, h2, h1', h2',
            Nat.ne_of_lt h3, Nat.ne_of_lt h4, Nat.ne_of_lt h5, g2, g3,
            gH1] <;>
          omega
      · -- remaining case: release a single block
        rename_i hnd0 hnd1 hnd2
        simp [lenAt_def, chainAt, appendBlock, h1, h2, h1', h2'] at hnd0 hnd1 hnd2
        refine ⟨?_, ?_, ?_, ?_, ?_, ?_, ?_, ?_, ?_⟩ <;>
          simp [lenAt_def, chainAt, appendBlock, allocAt, h1, h2, h1', h2',
            Nat.ne_of_lt h3, Nat.ne_of_lt h4, Nat.ne_of_lt h5, g2, g3,
            gH1, gTake] <;>
          omega

/-- The invariant is unaffected by moving the random-stream position. -/
theorem inv_rng {s : SimState} (h : StateInv s) (n : Nat) :
    StateInv { s with rng := n } := h

/-- The mid-round facts do not depend on the base state's random-stream
position. -/
theorem midFacts_rng {s m : SimState} {n : Nat}
    (f : MidFacts { s with rng := n } m) : MidFacts s m :=
  ⟨f.hlt, f.blt, f.plt, f.leadNN, f.hcase, f.gh, f.gb, f.gp, f.hmono⟩

/-- One full round (miner plus `select_chain`) preserves the invariant,
never shrinks the honest chain and leaves a nonnegative lead. -/
theorem roundStep_inv (rate : ℚ) (randf : Nat → ℚ) (tsf : Nat → Nat)
    (s : SimState) (hInv : StateInv s) :
    StateInv (roundStep rate randf tsf s).1 ∧
      lenAt s s.hRef ≤
        lenAt (roundStep rate randf tsf s).1 (roundStep rate randf tsf s).1.hRef ∧
      0 ≤ lead (roundStep rate randf tsf s).1 := by
  have h0 : StateInv { s with rng := s.rng + 1 } := inv_rng hInv _
  unfold roundStep
  dsimp only
  split
  · exact select_chain_inv (midFacts_rng (selfish_miner_mid tsf _ h0))
  · exact select_chain_inv (midFacts_rng (honest_miner_mid randf tsf _ h0))

/-- The initial state satisfies the invariant. -/
theorem initState_inv (tsf : Nat → Nat) : StateInv (initState tsf) := by
  refine ⟨?_, ?_, ?_, ?_, ?_, ?_, ?_, ?_, ?_, ?_⟩ <;>
    simp [initState, lenAt_def, chainAt, goodChain]

/-- Every reachable state satisfies the invariant. -/
theorem reachable_inv {rate : ℚ} {randf : Nat → ℚ} {tsf : Nat → Nat}
    {s : SimState} (h : Reachable rate randf tsf s) : StateInv s := by
  induction h with
  | init => exact initState_inv tsf
  | step _ ih => exact (roundStep_inv _ _ _ _ ih).1

/-- The state after any number of simulated rounds is reachable. -/
theorem runSim_reachable (rate : ℚ) (randf : Nat → ℚ) (tsf : Nat → Nat) :
    ∀ n, Reachable rate randf tsf (runSim rate randf tsf n).1
  | 0 => .init
  | n + 1 => .step (runSim_reachable rate randf tsf n)

end SM

open SM

set_option maxRecDepth 40000 in
/-- C2 (counterexample): after the 8-round run selfish, selfish, selfish,
selfish, honest, honest, selfish, honest at `malicious_rate = 1/2`, the
counter `private_chain_length` (the spec's `undisclosed_count`) is `-1`,
refuting the claim that it is nonnegative after every transition. -/
theorem C2_counterexample :
    (runSim (Rat.divInt 1 2) drawsLeadDrain tsId 8).1.pcl < 0 := by decide

/-- C2 (amended): for every reachable state of the simulation, the actual
undisclosed lead `len(private chain) - len(public chain)` is nonnegative
after a `selfish_miner` step, after a `honest_miner` step, and after a
full round; the `private_chain_length` counter itself, however, can go
negative. -/
theorem C2_amended (rate : ℚ) (randf : Nat → ℚ) (tsf : Nat → Nat)
    (s : SimState) (h : Reachable rate randf tsf s) :
    0 ≤ lead (selfish_miner tsf s).1 ∧
      0 ≤ lead (honest_miner randf tsf s).1 ∧
      0 ≤ lead (roundStep rate randf tsf s).1 := by
  have hInv := reachable_inv h
  have l1 := (selfish_miner_mid tsf s hInv).leadNN
  have l2 := (honest_miner_mid randf tsf s hInv).leadNN
  have l3 := (roundStep_inv rate randf tsf s hInv).2.2
  unfold lead at *
  exact ⟨by omega, by omega, l3⟩

/-- Witness for C2 (amended) at the initial state. -/
theorem C2_amended_witness :
    0 ≤ lead (selfish_miner tsId (initState tsId)).1 ∧
      0 ≤ lead (honest_miner drawsLeadDrain tsId (initState tsId)).1 ∧
      0 ≤ lead (roundStep (Rat.divInt 1 2) drawsLeadDrain tsId (initState tsId)).1 :=
  C2_amended (Rat.divInt 1 2) drawsLeadDrain tsId (initState tsId) Reachable.init

/-- C10: across any round of the selfish-mining simulation taken from a
reachable state (chosen miner acts, then `select_chain` runs), the honest
node's chain length never decreases. -/
theorem C10_theorem (rate : ℚ) (randf : Nat → ℚ) (tsf : Nat → Nat)
    (s : SimState) (h : Reachable rate randf tsf s) :
    lenAt s s.hRef ≤
      lenAt (roundStep rate randf tsf s).1 (roundStep rate randf tsf s).1.hRef :=
  (roundStep_inv rate randf tsf s (reachable_inv h)).2.1

/-- Witness for C10 at the initial state. -/
theorem C10_theorem_witness :
    lenAt (initState tsId) (initState tsId).hRef ≤
      lenAt (roundStep (Rat.divInt 1 2) drawsLeadDrain tsId (initState tsId)).1
        (roundStep (Rat.divInt 1 2) drawsLeadDrain tsId (initState tsId)).1.hRef :=
  C10_theorem (Rat.divInt 1 2) drawsLeadDrain tsId (initState tsId) Reachable.init

set_option maxRecDepth 40000 in
/-- C1 (counterexample): from the initial state (parity, counter 0), two
consecutive adversary blocks leave the counter at 2 and the lead at
exactly 2, yet both rounds take the no-publish branch and the public
chain differs from the private chain — the claimed
"publish once the lead reaches 2 from parity" does not fire. -/
theorem C1_counterexample :
    (runSim (Rat.divInt 1 2) drawsAllSelfish tsId 2).2 =
        [RTag.sHold, RTag.sHold] ∧
      (runSim (Rat.divInt 1 2) drawsAllSelfish tsId 2).1.pcl = 2 ∧
      lead (runSim (Rat.divInt 1 2) drawsAllSelfish tsId 2).1 = 2 ∧
      chainAt (runSim (Rat.divInt 1 2) drawsAllSelfish tsId 2).1
          (runSim (Rat.divInt 1 2) drawsAllSelfish tsId 2).1.pRef ≠
        chainAt (runSim (Rat.divInt 1 2) drawsAllSelfish tsId 2).1
          (runSim (Rat.divInt 1 2) drawsAllSelfish tsId 2).1.bRef := by
  decide

/-- C1 (amended): on any invariant state, the selfish miner's publish
branch (`public := deepcopy(private)`, counter reset to 0) fires exactly
when the private and public chain references are the same aliased object
and the counter is 1 before the new block (so that it reaches 2 with the
append); when it fires, the public chain equals the private chain and the
counter is 0 afterwards. -/
theorem C1_amended (tsf : Nat → Nat) (s : SimState) (hInv : StateInv s) :
    ((selfish_miner tsf s).2 = RTag.sPub ↔ s.bRef = s.pRef ∧ s.pcl = 1) ∧
      ((selfish_miner tsf s).2 = RTag.sPub →
        chainAt (selfish_miner tsf s).1 (selfish_miner tsf s).1.pRef =
            chainAt (selfish_miner tsf s).1 (selfish_miner tsf s).1.bRef ∧
          (selfish_miner tsf s).1.pcl = 0) := by
  unfold StateInv at hInv
  obtain ⟨h1, h2, h3, h4, h5, h6, h7, g1, g2, g3⟩ := hInv
  simp only [lenAt_def, chainAt] at h7
  unfold selfish_miner
  dsimp only
  split
  · rename_i hcond
    simp only [lenAt_def, chainAt, appendBlock] at hcond
    by_cases hbp : s.pRef = s.bRef
    · constructor
      · simp only [true_iff]
        exact ⟨hbp.symm, by omega⟩
      · intro _
        refine ⟨?_, rfl⟩
        simp [lenAt_def, chainAt, allocAt, appendBlock, Nat.ne_of_lt h4, hbp]
    · exfalso
      simp [hbp] at hcond
      omega
  · rename_i hcond
    simp only [lenAt_def, chainAt, appendBlock] at hcond
    constructor
    · constructor
      · intro h
        exact absurd h (by simp)
      · rintro ⟨hb, hp⟩
        exfalso
        apply hcond
        constructor
        · simp [hb.symm]
        · omega
    · intro h
      exact absurd h (by simp)

/-- Witness for C1 (amended) at the reachable state after the three
rounds selfish, honest (coin below 1/2, creating the alias), selfish:
there the counter is 1, the references are aliased, and the theorem
applies. -/
theorem C1_amended_witness :
    ((selfish_miner tsId
          (runSim (Rat.divInt 1 2) drawsAliasPub tsId 3).1).2 = RTag.sPub ↔
        (runSim (Rat.divInt 1 2) drawsAliasPub tsId 3).1.bRef =
            (runSim (Rat.divInt 1 2) drawsAliasPub tsId 3).1.pRef ∧
          (runSim (Rat.divInt 1 2) drawsAliasPub tsId 3).1.pcl = 1) ∧
      ((selfish_miner tsId
            (runSim (Rat.divInt 1 2) drawsAliasPub tsId 3).1).2 = RTag.sPub →
        chainAt (selfish_miner tsId
              (runSim (Rat.divInt 1 2) drawsAliasPub tsId 3).1).1
            (selfish_miner tsId
              (runSim (Rat.divInt 1 2) drawsAliasPub tsId 3).1).1.pRef =
            chainAt (selfish_miner tsId
                (runSim (Rat.divInt 1 2) drawsAliasPub tsId 3).1).1
              (selfish_miner tsId
                (runSim (Rat.divInt 1 2) drawsAliasPub tsId 3).1).1.bRef ∧
          (selfish_miner tsId
              (runSim (Rat.divInt 1 2) drawsAliasPub tsId 3).1).1.pcl = 0) :=
  C1_amended tsId (runSim (Rat.divInt 1 2) drawsAliasPub tsId 3).1
    (reachable_inv (runSim_reachable (Rat.divInt 1 2) drawsAliasPub tsId 3))

/-- C3: when the honest miner acts from a reachable state whose
undisclosed lead is strictly greater than 2, exactly one more block
becomes public (the public chain reference gains exactly one block) and
`private_chain_length` decreases by exactly 2. -/
theorem C3_theorem (rate : ℚ) (randf : Nat → ℚ) (tsf : Nat → Nat)
    (s : SimState) (h : Reachable rate randf tsf s) (hlead : 2 < lead s) :
    lenAt (honest_miner randf tsf s).1 (honest_miner randf tsf s).1.pRef =
        lenAt s s.pRef + 1 ∧
      (honest_miner randf tsf s).1.pcl = s.pcl - 2 ∧
      (honest_miner randf tsf s).2 = RTag.hElse := by
  have hInv := reachable_inv h
  unfold StateInv at hInv
  obtain ⟨h1, h2, h3, h4, h5, h6, h7, g1, g2, g3⟩ := hInv
  unfold lead at hlead
  simp only [lenAt_def, chainAt] at h6 h7 hlead
  have h1' : ¬ s.bRef = s.hRef := fun hx => h1 hx.symm
  have h2' : ¬ s.pRef = s.hRef := fun hx => h2 hx.symm
  unfold honest_miner
  dsimp only
  split
  · rename_i hd
    exfalso
    simp [lenAt_def, chainAt, appendBlock, h1', h2'] at hd
    omega
  · split
    · rename_i hnd hd
      exfalso
      simp [lenAt_def, chainAt, appendBlock, h1', h2'] at hd
      omega
    · split
      · rename_i hnd hnd1 hd
        exfalso
        simp [lenAt_def, chainAt, appendBlock, h1', h2'] at hd
        omega
      · refine ⟨?_, rfl, rfl⟩
        simp [lenAt_def, chainAt, appendBlock, allocAt, h1', h2',
          Nat.ne_of_lt h5]
        omega

/-- Witness for C3 at the reachable state reached by four consecutive
selfish rounds, where the lead is 4. -/
theorem C3_theorem_witness :
    lenAt (honest_miner drawsLeadDrain tsId
          (runSim (Rat.divInt 1 2) drawsLeadDrain tsId 4).1).1
        (honest_miner drawsLeadDrain tsId
          (runSim (Rat.divInt 1 2) drawsLeadDrain tsId 4).1).1.pRef =
        lenAt (runSim (Rat.divInt 1 2) drawsLeadDrain tsId 4).1
          (runSim (Rat.divInt 1 2) drawsLeadDrain tsId 4).1.pRef + 1 ∧
      (honest_miner drawsLeadDrain tsId
          (runSim (Rat.divInt 1 2) drawsLeadDrain tsId 4).1).1.pcl =
        (runSim (Rat.divInt 1 2) drawsLeadDrain tsId 4).1.pcl - 2 ∧
      (honest_miner drawsLeadDrain tsId
          (runSim (Rat.divInt 1 2) drawsLeadDrain tsId 4).1).2 =
        RTag.hElse :=
  C3_theorem (Rat.divInt 1 2) drawsLeadDrain tsId
    (runSim (Rat.divInt 1 2) drawsLeadDrain tsId 4).1
    (runSim_reachable (Rat.divInt 1 2) drawsLeadDrain tsId 4) (by decide)

set_option maxRecDepth 40000 in
/-- C4 (counterexample): after the two rounds selfish then honest with the
tie-break coin below 1/2, the selfish node's private and public chain
fields hold the same object (`bRef = pRef`), and a subsequent selfish
append — which takes the no-publish branch and never assigns the public
reference — changes the public chain's contents through the alias.  The
claimed "distinct objects never mutated through one another" fails. -/
theorem C4_counterexample :
    (runSim (Rat.divInt 1 2) drawsAliasTie tsId 2).1.bRef =
        (runSim (Rat.divInt 1 2) drawsAliasTie tsId 2).1.pRef ∧
      (selfish_miner tsId (runSim (Rat.divInt 1 2) drawsAliasTie tsId 2).1).2 =
        RTag.sHold ∧
      chainAt
          (selfish_miner tsId
            (runSim (Rat.divInt 1 2) drawsAliasTie tsId 2).1).1
          (runSim (Rat.divInt 1 2) drawsAliasTie tsId 2).1.pRef ≠
        chainAt (runSim (Rat.divInt 1 2) drawsAliasTie tsId 2).1
          (runSim (Rat.divInt 1 2) drawsAliasTie tsId 2).1.pRef := by
  decide

/-- C4 (amended): every promotion or reset in the resolver installs a
fresh deep copy except the `undisclosed_count == 1` tie-break, which
assigns references without copying; in particular, on any invariant state
with lead exactly 1 and the coin draw below 1/2, both selfish chain
fields end up aliased to the honest node's chain object. -/
theorem C4_amended (randf : Nat → ℚ) (tsf : Nat → Nat) (s : SimState)
    (hInv : StateInv s) (hd : lead s = 1)
    (hcoin : randf s.rng < Rat.divInt 1 2) :
    (honest_miner randf tsf s).1.bRef = s.hRef ∧
      (honest_miner randf tsf s).1.pRef = s.hRef ∧
      (honest_miner randf tsf s).2 = RTag.h1lt := by
  unfold StateInv at hInv
  obtain ⟨h1, h2, h3, h4, h5, h6, h7, g1, g2, g3⟩ := hInv
  unfold lead at hd
  simp only [lenAt_def, chainAt] at hd
  have h1' : ¬ s.bRef = s.hRef := fun hx => h1 hx.symm
  have h2' : ¬ s.pRef = s.hRef := fun hx => h2 hx.symm
  unfold honest_miner
  dsimp only
  split
  · rename_i hd0
    exfalso
    simp [lenAt_def, chainAt, appendBlock, h1', h2'] at hd0
    omega
  · split
    · split
      · exact ⟨rfl, rfl, rfl⟩
      · rename_i hc
        exact absurd hcoin hc
    · rename_i hnd0 hd1
      exfalso
      apply hd1
      simp [lenAt_def, chainAt, appendBlock, h1', h2']
      omega

/-- Witness for C4 (amended) at the reachable state after one selfish
round (lead 1), with a coin stream that draws 0. -/
theorem C4_amended_witness :
    (honest_miner (fun _ => 0) tsId
          (runSim (Rat.divInt 1 2) drawsAliasTie tsId 1).1).1.bRef =
        (runSim (Rat.divInt 1 2) drawsAliasTie tsId 1).1.hRef ∧
      (honest_miner (fun _ => 0) tsId
            (runSim (Rat.divInt 1 2) drawsAliasTie tsId 1).1).1.pRef =
          (runSim (Rat.divInt 1 2) drawsAliasTie tsId 1).1.hRef ∧
        (honest_miner (fun _ => 0) tsId
            (runSim (Rat.divInt 1 2) drawsAliasTie tsId 1).1).2 =
          RTag.h1lt :=
  C4_amended (fun _ => 0) tsId (runSim (Rat.divInt 1 2) drawsAliasTie tsId 1).1
    (reachable_inv (runSim_reachable (Rat.divInt 1 2) drawsAliasTie tsId 1))
    (by decide) (by decide)

/-- Every block of a chain carrying only node ids 1 and -1 is counted by
exactly one of the two filters of `block_count`. -/
theorem goodChain_count (c : Chain) (hc : goodChain c) :
    (c.filter (fun b => b.node_id = 1)).length +
        (c.filter (fun b => b.node_id = -1)).length = c.length := by
  induction c with
  | nil => simp
  | cons b t ih =>
    have hb := hc b (List.mem_cons_self b t)
    have ht : goodChain t := fun x hx => hc x (List.mem_cons_of_mem _ hx)
    have iht := ih ht
    rcases hb with hb | hb <;> simp [List.filter_cons, hb] <;> omega

set_option maxRecDepth 40000 in
/-- C5 (counterexample): after the two rounds selfish then honest with the
coin below 1/2, the canonical chain held by the honest node is the
selfish genesis followed by one honest block; the code's ratio counts the
genesis (giving 1/2) while the spec's genesis-excluded ratio is 0. -/
theorem C5_counterexample :
    block_count (runSim (Rat.divInt 1 2) drawsAliasTie tsId 2).1 (-1) = 1 ∧
      block_count (runSim (Rat.divInt 1 2) drawsAliasTie tsId 2).1 1 = 1 ∧
      block_count_specGenesisExcluded
          (runSim (Rat.divInt 1 2) drawsAliasTie tsId 2).1 (-1) = 0 ∧
      block_count_specGenesisExcluded
          (runSim (Rat.divInt 1 2) drawsAliasTie tsId 2).1 1 = 1 ∧
      profit_frac (runSim (Rat.divInt 1 2) drawsAliasTie tsId 2).1 ≠
        profit_frac_specGenesisExcluded
          (runSim (Rat.divInt 1 2) drawsAliasTie tsId 2).1 := by
  have h1 : block_count (runSim (Rat.divInt 1 2) drawsAliasTie tsId 2).1
      (-1) = 1 := by decide
  have h2 : block_count (runSim (Rat.divInt 1 2) drawsAliasTie tsId 2).1
      1 = 1 := by decide
  have h3 : block_count_specGenesisExcluded
      (runSim (Rat.divInt 1 2) drawsAliasTie tsId 2).1 (-1) = 0 := by decide
  have h4 : block_count_specGenesisExcluded
      (runSim (Rat.divInt 1 2) drawsAliasTie tsId 2).1 1 = 1 := by decide
  refine ⟨h1, h2, h3, h4, ?_⟩
  unfold profit_frac profit_frac_specGenesisExcluded
  rw [h1, h2, h3, h4]
  norm_num

/-- C5 (amended): the ratio the simulation reports counts every block of
the honest node's final chain including the Genesis block (whose
`node_id` is 1 or -1 according to which side's genesis survived): on
every reachable state the two counts add up to the full chain length, and
the reported ratio equals `block_count(-1) / len(chain)`. -/
theorem C5_amended (rate : ℚ) (randf : Nat → ℚ) (tsf : Nat → Nat)
    (s : SimState) (h : Reachable rate randf tsf s) :
    block_count s 1 + block_count s (-1) = lenAt s s.hRef ∧
      profit_frac s = (block_count s (-1) : ℚ) / (lenAt s s.hRef : ℚ) := by
  have hInv := reachable_inv h
  unfold StateInv at hInv
  obtain ⟨h1, h2, h3, h4, h5, h6, h7, g1, g2, g3⟩ := hInv
  have hcount := goodChain_count (chainAt s s.hRef) g1
  have hsum : block_count s 1 + block_count s (-1) = lenAt s s.hRef := by
    unfold block_count
    rw [lenAt_def]
    exact hcount
  refine ⟨hsum, ?_⟩
  unfold profit_frac
  rw [← hsum]
  push_cast
  ring

/-- Witness for C5 (amended) at the initial state. -/
theorem C5_amended_witness :
    block_count (initState tsId) 1 + block_count (initState tsId) (-1) =
        lenAt (initState tsId) (initState tsId).hRef ∧
      profit_frac (initState tsId) =
        (block_count (initState tsId) (-1) : ℚ) /
          (lenAt (initState tsId) (initState tsId).hRef : ℚ) :=
  C5_amended (Rat.divInt 1 2) drawsAliasTie tsId (initState tsId)
    Reachable.init

/-- The honest miner's transition never produces a selfish-branch tag. -/
theorem honest_miner_tag (randf : Nat → ℚ) (tsf : Nat → Nat)
    (s : SimState) :
    (honest_miner randf tsf s).2 ≠ RTag.sPub ∧
      (honest_miner randf tsf s).2 ≠ RTag.sHold := by
  unfold honest_miner
  dsimp only
  split
  · simp
  · split
    · split <;> simp
    · split <;> simp

/-- C9 (counterexample): with the invalid configuration
`malicious_rate = -1` (a negative probability) the simulation does not
fail before mining starts: the first round executes normally (taken by
the honest miner) and the honest chain grows to two blocks. -/
theorem C9_counterexample :
    (runSim (-1) (fun _ => 0) tsId 1).2 = [RTag.h0] ∧
      lenAt (runSim (-1) (fun _ => 0) tsId 1).1
        (runSim (-1) (fun _ => 0) tsId 1).1.hRef = 2 := by
  decide

/-- C9 (amended): the simulation performs no configuration validation at
all: with any negative `malicious_rate` and a nonnegative draw stream,
every requested round executes (the honest branch each time) and no
error is ever reported. -/
theorem C9_amended (rate : ℚ) (randf : Nat → ℚ) (tsf : Nat → Nat) (n : Nat)
    (hrate : rate < 0) (hpos : ∀ i, 0 ≤ randf i) :
    (runSim rate randf tsf n).2.length = n ∧
      ∀ t ∈ (runSim rate randf tsf n).2,
        t ≠ RTag.sPub ∧ t ≠ RTag.sHold := by
  induction n with
  | zero => simp [runSim]
  | succ n ih =>
    obtain ⟨ihl, iht⟩ := ih
    have hne : ¬ randf (runSim rate randf tsf n).1.rng ≤ rate := by
      intro hc
      exact absurd (le_trans (hpos _) hc) (not_le.2 hrate)
    unfold runSim roundStep
    dsimp only
    rw [if_neg hne]
    constructor
    · simp [ihl]
    · intro t ht
      rcases List.mem_append.1 ht with hmem | hmem
      · exact iht t hmem
      · rcases List.mem_singleton.1 hmem with rfl
        exact honest_miner_tag randf tsf _

/-- Witness for C9 (amended) with `malicious_rate = -1` and the zero
stream, over two rounds. -/
theorem C9_amended_witness :
    (runSim (-1) (fun _ => 0) tsId 2).2.length = 2 ∧
      ∀ t ∈ (runSim (-1) (fun _ => 0) tsId 2).2,
        t ≠ RTag.sPub ∧ t ≠ RTag.sHold :=
  C9_amended (-1) (fun _ => 0) tsId 2 (by norm_num) (fun i => le_refl 0)

/-- Timestamp-erased stores stay pointwise equal under appending
erasure-equal blocks at equal references. -/
theorem emap_appendBlock {s t : SimState}
    (emap : ∀ r, (s.store r).map eraseB = (t.store r).map eraseB)
    {r0 r1 : Nat} (er : r0 = r1) {b b' : Block}
    (hb : eraseB b = eraseB b') (r : Nat) :
    ((appendBlock s r0 b).store r).map eraseB =
      ((appendBlock t r1 b').store r).map eraseB := by
  subst er
  by_cases hr : r = r0 <;> simp [appendBlock, hr, emap r0, emap r, hb]

/-- Timestamp-erased stores stay pointwise equal under allocating
erasure-equal chains. -/
theorem emap_allocAt {s t : SimState}
    (emap : ∀ r, (s.store r).map eraseB = (t.store r).map eraseB)
    (e6 : s.next = t.next) {c c' : Chain}
    (hc : c.map eraseB = c'.map eraseB) (r : Nat) :
    ((allocAt s c).store r).map eraseB =
      ((allocAt t c').store r).map eraseB := by
  by_cases hr : r = s.next <;>
    simp [allocAt, hr, ← e6, hc, emap r]

/-- Erasure-equal stores have equal chain lengths everywhere. -/
theorem emap_length {s t : SimState}
    (emap : ∀ r, (s.store r).map eraseB = (t.store r).map eraseB) (r : Nat) :
    (s.store r).length = (t.store r).length := by
  have := congrArg List.length (emap r)
  simpa using this

/-- A `selfish_miner` step looks identical (branch taken, and the whole
state up to timestamps) from two timestamp-equivalent states. -/
theorem tsEquiv_selfish (tsf₁ tsf₂ : Nat → Nat) {s t : SimState}
    (h : tsEquiv s t) :
    tsEquiv (selfish_miner tsf₁ s).1 (selfish_miner tsf₂ t).1 ∧
      (selfish_miner tsf₁ s).2 = (selfish_miner tsf₂ t).2 := by
  obtain ⟨e1, e2, e3, e4, e5, e6, e7, emap⟩ := h
  have hlen := emap_length emap
  have hBlen : (s.store s.bRef).length = (t.store t.bRef).length := by
    rw [← e2]; exact hlen s.bRef
  have hPlen : (s.store s.pRef).length = (t.store t.pRef).length := by
    rw [← e3]; exact hlen s.pRef
  have hbA : eraseB ⟨-1, "selfish", tsf₁ s.clock⟩ =
      eraseB ⟨-1, "selfish", tsf₂ t.clock⟩ := rfl
  have emap1 := emap_appendBlock emap e2 hbA
  have hbp : s.pRef = s.bRef ↔ t.pRef = t.bRef := by rw [e2, e3]
  unfold selfish_miner
  dsimp only
  split
  · rename_i hcs
    split
    · rename_i hct
      refine ⟨⟨by simpa using e1, by simpa using e2, by simpa using e6,
        by simp, by simpa using e5, by simpa using e6, by simpa using e7,
        ?_⟩, rfl⟩
      intro r
      refine emap_allocAt emap1 (by simpa using e6) ?_ r
      simpa [chainAt, e2] using emap1 t.bRef
    · rename_i hct
      exfalso
      simp only [lenAt_def, chainAt, appendBlock] at hcs hct
      rcases Nat.decEq s.pRef s.bRef with hd | hd
      · simp [hd, (not_iff_not.2 hbp).1 hd, e4] at hcs hct
        omega
      · simp [hd, hbp.1 hd, e4] at hcs hct
        omega
  · rename_i hcs
    split
    · rename_i hct
      exfalso
      simp only [lenAt_def, chainAt, appendBlock] at hcs hct
      rcases Nat.decEq s.pRef s.bRef with hd | hd
      · simp [hd, (not_iff_not.2 hbp).1 hd, e4] at hcs hct
        omega
      · simp [hd, hbp.1 hd, e4] at hcs hct
        omega
    · refine ⟨⟨by simpa using e1, by simpa using e2, by simpa using e3,
        by simpa using e4, by simpa using e5, by simpa using e6,
        by simpa using e7, ?_⟩, rfl⟩
      exact fun r => emap1 r

/-- A `honest_miner` step looks identical (branch taken, and the whole
state up to timestamps) from two timestamp-equivalent states, for the
same draw stream. -/
theorem tsEquiv_honest (randf : Nat → ℚ) (tsf₁ tsf₂ : Nat → Nat)
    {s t : SimState} (h : tsEquiv s t) :
    tsEquiv (honest_miner randf tsf₁ s).1 (honest_miner randf tsf₂ t).1 ∧
      (honest_miner randf tsf₁ s).2 = (honest_miner randf tsf₂ t).2 := by
  obtain ⟨e1, e2, e3, e4, e5, e6, e7, emap⟩ := h
  have hbA : eraseB ⟨1, "honest", tsf₁ s.clock⟩ =
      eraseB ⟨1, "honest", tsf₂ t.clock⟩ := rfl
  have emap1 := emap_appendBlock emap e1 hbA
  have hlen1 := emap_length emap1
  have hB1 : ((appendBlock s s.hRef ⟨1, "honest", tsf₁ s.clock⟩).store
        s.bRef).length =
      ((appendBlock t t.hRef ⟨1, "honest", tsf₂ t.clock⟩).store
        t.bRef).length := by
    rw [← e2]; exact hlen1 s.bRef
  have hP1 : ((appendBlock s s.hRef ⟨1, "honest", tsf₁ s.clock⟩).store
        s.pRef).length =
      ((appendBlock t t.hRef ⟨1, "honest", tsf₂ t.clock⟩).store
        t.pRef).length := by
    rw [← e3]; exact hlen1 s.pRef
  unfold honest_miner
  dsimp only
  split
  · -- source state takes the abandon branch
    rename_i hs0
    split
    · -- both take the abandon branch
      refine ⟨⟨by simpa using e1, by simpa using e6, by simpa using e3,
        by simp, by simpa using e5, by simpa using e6, by simpa using e7,
        ?_⟩, rfl⟩
      intro r
      exact emap_allocAt emap1 (by simpa using e6)
        (by simpa [chainAt, e1] using emap1 t.hRef) r
    · rename_i ht0
      exfalso
      simp only [lenAt_def, chainAt, appendBlock_bRef, appendBlock_pRef]
        at hs0 ht0
      omega
  · rename_i hs0
    split
    · -- source state takes the tie-break branch
      rename_i hs1
      split
      · -- source coin below 1/2
        rename_i hsc
        split
        · rename_i ht0
          exfalso
          simp only [lenAt_def, chainAt, appendBlock_bRef, appendBlock_pRef]
            at hs0 ht0
          omega
        · rename_i ht0
          split
          · rename_i ht1
            split
            · -- both coins below 1/2
              refine ⟨⟨by simpa using e1, by simpa using e1,
                by simpa using e1, by simp, by simpa using e5,
                by simpa using e6, by simpa using e7, ?_⟩, rfl⟩
              intro r
              exact emap_allocAt emap1 (by simpa using e6)
                (by simpa [chainAt, e2] using emap1 t.bRef) r
            · rename_i htc
              exfalso
              simp only [allocAt_rng, appendBlock_rng] at hsc htc
              rw [← e5] at htc
              exact htc hsc
          · rename_i ht1
            exfalso
            simp only [lenAt_def, chainAt, appendBlock_bRef,
              appendBlock_pRef] at hs1 ht1
            omega
      · -- source coin at or above 1/2
        rename_i hsc
        split
        · rename_i ht0
          exfalso
          simp only [lenAt_def, chainAt, appendBlock_bRef, appendBlock_pRef]
            at hs0 ht0
          omega
        · rename_i ht0
          split
          · rename_i ht1
            split
            · rename_i htc
              exfalso
              simp only [allocAt_rng, appendBlock_rng] at hsc htc
              rw [← e5] at htc
              exact hsc htc
            · -- both coins at or above 1/2
              refine ⟨⟨by simpa using e6, by simpa using e2,
                by simpa using e6, by simp, by simpa using e5,
                by simpa using e6, by simpa using e7, ?_⟩, rfl⟩
              intro r
              exact emap_allocAt emap1 (by simpa using e6)
                (by simpa [chainAt, e2] using emap1 t.bRef) r
          · rename_i ht1
            exfalso
            simp only [lenAt_def, chainAt, appendBlock_bRef,
              appendBlock_pRef] at hs1 ht1
            omega
    · rename_i hs1
      split
      · -- source state publishes the whole private chain
        rename_i hs2
        split
        · rename_i ht0
          exfalso
          simp only [lenAt_def, chainAt, appendBlock_bRef, appendBlock_pRef]
            at hs0 ht0
          omega
        · rename_i ht0
          split
          · rename_i ht1
            exfalso
            simp only [lenAt_def, chainAt, appendBlock_bRef,
              appendBlock_pRef] at hs1 ht1
            omega
          · rename_i ht1
            split
            · -- both publish the whole private chain
              refine ⟨⟨by simpa using e1, by simpa using e2,
                by simpa using e6, by simp, by simpa using e5,
                by simpa using e6, by simpa using e7, ?_⟩, rfl⟩
              intro r
              exact emap_allocAt emap1 (by simpa using e6)
                (by simpa [chainAt, e2] using emap1 t.bRef) r
            · rename_i ht2
              exfalso
              simp only [lenAt_def, chainAt, appendBlock_bRef,
                appendBlock_pRef] at hs2 ht2
              omega
      · -- source state releases a single block
        rename_i hs2
        split
        · rename_i ht0
          exfalso
          simp only [lenAt_def, chainAt, appendBlock_bRef, appendBlock_pRef]
            at hs0 ht0
          omega
        · rename_i ht0
          split
          · rename_i ht1
            exfalso
            simp only [lenAt_def, chainAt, appendBlock_bRef,
              appendBlock_pRef] at hs1 ht1
            omega
          · rename_i ht1
            split
            · rename_i ht2
              exfalso
              simp only [lenAt_def, chainAt, appendBlock_bRef,
                appendBlock_pRef] at hs2 ht2
              omega
            · -- both release a single block
              refine ⟨⟨by simpa using e1, by simpa using e2,
                by simpa using e6, by simpa using e4, by simpa using e5,
                by simpa using e6, by simpa using e7, ?_⟩, rfl⟩
              intro r
              refine emap_allocAt emap1 (by simpa using e6) ?_ r
              simp only [chainAt, lenAt_def, appendBlock_bRef,
                appendBlock_pRef, e2, e3]
              rw [List.map_take, List.map_take, emap1 t.bRef, hlen1 t.pRef]

/-- `select_chain` preserves timestamp-equivalence. -/
theorem tsEquiv_select {s t : SimState} (h : tsEquiv s t) :
    tsEquiv (select_chain s) (select_chain t) := by
  obtain ⟨e1, e2, e3, e4, e5, e6, e7, emap⟩ := h
  have hlen := emap_length emap
  have hH : (s.store s.hRef).length = (t.store t.hRef).length := by
    rw [← e1]; exact hlen s.hRef
  have hP : (s.store s.pRef).length = (t.store t.pRef).length := by
    rw [← e3]; exact hlen s.pRef
  unfold select_chain
  split
  · rename_i hsA
    split
    · -- both copy the public chain over the honest one
      refine ⟨by simpa using e6, by simpa using e2, by simpa using e3,
        by simpa using e4, by simpa using e5, by simpa using e6,
        by simpa using e7, ?_⟩
      intro r
      exact emap_allocAt emap e6 (by simpa [chainAt, e3] using emap t.pRef) r
    · rename_i htA
      exfalso
      simp only [lenAt_def, chainAt] at hsA htA
      omega
  · rename_i hsA
    split
    · rename_i hsB
      split
      · rename_i htA
        exfalso
        simp only [lenAt_def, chainAt] at hsA htA
        omega
      · rename_i htA
        split
        · -- both copy the honest chain over the public one
          refine ⟨by simpa using e1, by simpa using e2, by simpa using e6,
            by simpa using e4, by simpa using e5, by simpa using e6,
            by simpa using e7, ?_⟩
          intro r
          exact emap_allocAt emap e6
            (by simpa [chainAt, e1] using emap t.hRef) r
        · rename_i htB
          exfalso
          simp only [lenAt_def, chainAt] at hsB htB
          omega
    · rename_i hsB
      split
      · rename_i htA
        exfalso
        simp only [lenAt_def, chainAt] at hsA htA
        omega
      · rename_i htA
        split
        · rename_i htB
          exfalso
          simp only [lenAt_def, chainAt] at hsB htB
          omega
        · -- equal lengths on both sides
          refine ⟨by simpa using e6, by simpa using e2, by simpa using e3,
            by simpa using e4, by simpa using e5, by simpa using e6,
            by simpa using e7, ?_⟩
          intro r
          exact emap_allocAt emap e6
            (by simpa [chainAt, e3] using emap t.pRef) r

/-- Bumping the random-stream position preserves timestamp-equivalence. -/
theorem tsEquiv_bump {s t : SimState} (h : tsEquiv s t) :
    tsEquiv { s with rng := s.rng + 1 } { t with rng := t.rng + 1 } := by
  obtain ⟨e1, e2, e3, e4, e5, e6, e7, emap⟩ := h
  exact ⟨e1, e2, e3, e4, by simp [e5], e6, e7, emap⟩

/-- A full round preserves timestamp-equivalence and takes the same
branch. -/
theorem tsEquiv_round (rate : ℚ) (randf : Nat → ℚ) (tsf₁ tsf₂ : Nat → Nat)
    {s t : SimState} (h : tsEquiv s t) :
    tsEquiv (roundStep rate randf tsf₁ s).1 (roundStep rate randf tsf₂ t).1 ∧
      (roundStep rate randf tsf₁ s).2 = (roundStep rate randf tsf₂ t).2 := by
  have e5 : s.rng = t.rng := h.2.2.2.2.1
  have hb := tsEquiv_bump h
  unfold roundStep
  dsimp only
  by_cases hm : randf s.rng ≤ rate
  · rw [if_pos hm, if_pos (by rw [← e5]; exact hm)]
    have hsf := tsEquiv_selfish tsf₁ tsf₂ hb
    exact ⟨tsEquiv_select hsf.1, hsf.2⟩
  · rw [if_neg hm, if_neg (by rw [← e5]; exact hm)]
    have hsf := tsEquiv_honest randf tsf₁ tsf₂ hb
    exact ⟨tsEquiv_select hsf.1, hsf.2⟩

/-- The initial states of two runs differing only in timestamps are
timestamp-equivalent. -/
theorem tsEquiv_init (tsf₁ tsf₂ : Nat → Nat) :
    tsEquiv (initState tsf₁) (initState tsf₂) := by
  refine ⟨rfl, rfl, rfl, rfl, rfl, rfl, rfl, ?_⟩
  intro r
  unfold initState
  dsimp only
  split_ifs <;> rfl

/-- Whole runs from two timestamp streams stay equivalent and produce the
same branch trace. -/
theorem tsEquiv_runSim (rate : ℚ) (randf : Nat → ℚ)
    (tsf₁ tsf₂ : Nat → Nat) :
    ∀ n, tsEquiv (runSim rate randf tsf₁ n).1 (runSim rate randf tsf₂ n).1 ∧
      (runSim rate randf tsf₁ n).2 = (runSim rate randf tsf₂ n).2
  | 0 => ⟨tsEquiv_init tsf₁ tsf₂, rfl⟩
  | n + 1 => by
    have ih := tsEquiv_runSim rate randf tsf₁ tsf₂ n
    have hr := tsEquiv_round rate randf tsf₁ tsf₂ ih.1
    unfold runSim
    dsimp only
    exact ⟨hr.1, by rw [ih.2, hr.2]⟩

/-- `block_count` only reads timestamp-erased data. -/
theorem tsEquiv_block_count {s t : SimState} (h : tsEquiv s t) (id : Int) :
    block_count s id = block_count t id := by
  obtain ⟨e1, e2, e3, e4, e5, e6, e7, emap⟩ := h
  unfold block_count
  have hm : (chainAt s s.hRef).map eraseB = (chainAt t t.hRef).map eraseB := by
    rw [chainAt, chainAt, e1]
    exact emap t.hRef
  rw [← List.countP_eq_length_filter, ← List.countP_eq_length_filter]
  have h1 : List.countP (fun p => decide (p.1 = id))
        ((chainAt s s.hRef).map eraseB) =
      List.countP (fun p => decide (p.1 = id))
        ((chainAt t t.hRef).map eraseB) := by rw [hm]
  rw [List.countP_map, List.countP_map] at h1
  exact h1

/-- C8: two runs with the same draw stream and configuration take
identical resolver branches in every round and report the same block
counts and the same final profit ratio, regardless of the timestamps
(and hence hashes) of the blocks they create. -/
theorem C8_theorem (rate : ℚ) (randf : Nat → ℚ) (tsf₁ tsf₂ : Nat → Nat)
    (n : Nat) :
    (runSim rate randf tsf₁ n).2 = (runSim rate randf tsf₂ n).2 ∧
      (∀ id, block_count (runSim rate randf tsf₁ n).1 id =
        block_count (runSim rate randf tsf₂ n).1 id) ∧
      profit_frac (runSim rate randf tsf₁ n).1 =
        profit_frac (runSim rate randf tsf₂ n).1 := by
  have h := tsEquiv_runSim rate randf tsf₁ tsf₂ n
  refine ⟨h.2, fun id => tsEquiv_block_count h.1 id, ?_⟩
  unfold profit_frac
  rw [tsEquiv_block_count h.1 1, tsEquiv_block_count h.1 (-1)]


/-- Running one successful round and then `n` more rounds is the same as
running `n + 1` rounds. -/
theorem afterRounds_step (srate : ℚ) (randf : Nat → ℚ) (choicef : Nat → Nat)
    (tsf : Nat → Nat) {st : FA.FState} {r : FA.FState × FA.FChain × FA.FChain}
    (hr : FA.forkRound srate randf choicef tsf st = some r) (m : Nat) :
    FA.afterRounds srate randf choicef tsf (m + 2) st =
      FA.afterRounds srate randf choicef tsf (m + 1) r.1 := by
  rw [FA.afterRounds, hr]

/-- After one successful round, `afterRounds 1` returns it. -/
theorem afterRounds_one (srate : ℚ) (randf : Nat → ℚ) (choicef : Nat → Nat)
    (tsf : Nat → Nat) {st : FA.FState}
    {r : FA.FState × FA.FChain × FA.FChain}
    (hr : FA.forkRound srate randf choicef tsf st = some r) :
    FA.afterRounds srate randf choicef tsf 1 st = some r := by
  rw [FA.afterRounds, hr]

/-- C6: whenever the fork-race trial loop returns an outcome, it stopped
at the first round in which a representative chain length excluding
genesis strictly exceeded the threshold 6, and the outcome is: adversary
wins iff its chain is strictly longer, or the lengths are exactly equal
and the fair coin draw is below 1/2. -/
theorem C6_theorem (srate : ℚ) (randf : Nat → ℚ) (choicef : Nat → Nat)
    (tsf : Nat → Nat) (fuel : Nat) (st : FA.FState) (n : Nat) (w : Bool)
    (h : FA.forkTrial srate randf choicef tsf fuel st = some (n, w)) :
    1 ≤ n ∧ n ≤ fuel ∧
      ∃ st2 chH chM,
        FA.afterRounds srate randf choicef tsf n st = some (st2, chH, chM) ∧
          (6 < (chH.length : Int) - 1 ∨ 6 < (chM.length : Int) - 1) ∧
          (∀ k st3 h3 m3, 1 ≤ k → k < n →
            FA.afterRounds srate randf choicef tsf k st =
              some (st3, h3, m3) →
            ¬(6 < (h3.length : Int) - 1 ∨ 6 < (m3.length : Int) - 1)) ∧
          w = FA.winDecision randf chH chM st2.rng := by
  induction fuel generalizing st n w with
  | zero => simp [FA.forkTrial] at h
  | succ fuel ih =>
    rw [FA.forkTrial] at h
    rcases hr : FA.forkRound srate randf choicef tsf st with _ | r
    · rw [hr] at h
      simp at h
    · obtain ⟨st2, chH, chM⟩ := r
      rw [hr] at h
      dsimp only at h
      by_cases hc : 6 < (chH.length : Int) - 1 ∨ 6 < (chM.length : Int) - 1
      · rw [if_pos hc] at h
        simp only [Option.some.injEq, Prod.mk.injEq] at h
        obtain ⟨hn, hw⟩ := h
        refine ⟨by omega, by omega, st2, chH, chM, ?_, hc, ?_, ?_⟩
        · rw [← hn]
          exact afterRounds_one srate randf choicef tsf hr
        · intro k st3 h3 m3 hk1 hk2 _
          omega
        · rw [← hw]
      · rw [if_neg hc] at h
        rcases ht : FA.forkTrial srate randf choicef tsf fuel st2 with _ | p
        · rw [ht] at h
          simp at h
        · obtain ⟨n', w'⟩ := p
          rw [ht] at h
          dsimp only at h
          simp only [Option.some.injEq, Prod.mk.injEq] at h
          obtain ⟨hn, hw⟩ := h
          obtain ⟨hn1, hnf, st3, chH3, chM3, hA, hC, hMin, hW⟩ :=
            ih st2 n' w' ht
          refine ⟨by omega, by omega, st3, chH3, chM3, ?_, hC, ?_, ?_⟩
          · rw [← hn]
            rcases Nat.exists_eq_add_of_le hn1 with ⟨m, hm⟩
            have : n' + 1 = (m + 2) := by omega
            rw [this]
            rw [afterRounds_step srate randf choicef tsf hr m]
            have : m + 1 = n' := by omega
            rw [this]
            exact hA
          · intro k st4 h4 m4 hk1 hk2 hAk
            rcases Nat.lt_or_ge k 2 with hk | hk
            · have : k = 1 := by omega
              subst this
              rw [afterRounds_one srate randf choicef tsf hr] at hAk
              simp only [Option.some.injEq, Prod.mk.injEq] at hAk
              obtain ⟨_, hh4, hm4⟩ := hAk
              rw [hh4, hm4] at hc
              exact hc
            · rcases Nat.exists_eq_add_of_le hk with ⟨m, hm⟩
              have hkk : k = m + 2 := by omega
              subst hkk
              rw [afterRounds_step srate randf choicef tsf hr m] at hAk
              exact hMin (m + 1) st4 h4 m4 (by omega) (by omega) hAk
          · rw [← hw]
            exact hW

/-- Witness for C6: one honest and one malicious node, success rate 1 and
the zero draw stream: the trial stops after exactly 7 rounds (both chains
then have 7 non-genesis blocks, which exceeds 6), the earlier rounds do
not satisfy the stop condition, and the tied lengths are resolved by the
coin (0 < 1/2, adversary wins). -/
theorem C6_theorem_witness :
    1 ≤ 7 ∧ (7 : Nat) ≤ 10 ∧
      ∃ st2 chH chM,
        FA.afterRounds 1 (fun _ => 0) (fun _ => 0) tsId 7
            (FA.initFState tsId 1 1) = some (st2, chH, chM) ∧
          (6 < (chH.length : Int) - 1 ∨ 6 < (chM.length : Int) - 1) ∧
          (∀ k st3 h3 m3, 1 ≤ k → k < 7 →
            FA.afterRounds 1 (fun _ => 0) (fun _ => 0) tsId k
              (FA.initFState tsId 1 1) = some (st3, h3, m3) →
            ¬(6 < (h3.length : Int) - 1 ∨ 6 < (m3.length : Int) - 1)) ∧
          true = FA.winDecision (fun _ => 0) chH chM st2.rng :=
  C6_theorem 1 (fun _ => 0) (fun _ => 0) tsId 10 (FA.initFState tsId 1 1)
    7 true (by decide)

/-- With an empty malicious population, the round errors: Python's
`max()` raises on the empty sequence inside the second `select_chain`. -/
theorem forkRound_noMalicious (srate : ℚ) (randf : Nat → ℚ)
    (choicef : Nat → Nat) (tsf : Nat → Nat) (st : FA.FState)
    (hm : st.malicious = []) :
    FA.forkRound srate randf choicef tsf st = none := by
  unfold FA.forkRound
  rw [hm]
  dsimp only
  simp only [FA.mineAll, FA.select_chain]
  split <;> rfl

/-- A trial whose first round errors reports an error whatever the fuel. -/
theorem forkTrial_roundErr (srate : ℚ) (randf : Nat → ℚ)
    (choicef : Nat → Nat) (tsf : Nat → Nat) (st : FA.FState)
    (h : FA.forkRound srate randf choicef tsf st = none) :
    ∀ fuel, FA.forkTrial srate randf choicef tsf fuel st = none
  | 0 => rfl
  | fuel + 1 => by rw [FA.forkTrial, h]

/-- C7: with `malicious_rate = 0` the malicious population is empty, and
instead of completing every trial with an adversary loss, the simulation
errors in the first round of the trial (the empty malicious node list is
passed to `select_chain`, where Python's `max()` raises): no trial ever
completes. -/
theorem C7_theorem (node_count : Nat) (srate : ℚ) (randf : Nat → ℚ)
    (choicef : Nat → Nat) (tsf : Nat → Nat) (fuel : Nat) :
    FA.malicious_count node_count 0 = 0 ∧
      FA.simulate_trial node_count 0 srate randf choicef tsf fuel = none := by
  have hh : FA.honest_count node_count 0 = node_count := by
    unfold FA.honest_count FA.pyIntTrunc
    norm_num
  have hmc : FA.malicious_count node_count 0 = 0 := by
    unfold FA.malicious_count
    rw [hh]
    omega
  refine ⟨hmc, ?_⟩
  unfold FA.simulate_trial
  apply forkTrial_roundErr
  apply forkRound_noMalicious
  rw [hmc]
  simp [FA.initFState]
